import Mathlib

/-!
Verification development for the myraytracer repository.

The numeric code of the renderer works on 32-bit floats; here it is embedded
shallowly over the rationals, with exact arithmetic.  The two operations that
leave the rationals, square root (f32 sqrt and normalize) and the power curve
of the sRGB transform, are abstracted: square roots appear as explicit values
or oracle functions constrained by hypotheses of the form 0 <= s and
s * s = x, and the power function of the sRGB encoding is a function
parameter.  Machine-integer arithmetic (u32, usize) is modelled on Nat with
explicit saturation and wrap where the source relies on it.
-/

/-- Vector of three rational coordinates, standing for glam Vec3. -/
structure Vec3 where
  x : ℚ
  y : ℚ
  z : ℚ
deriving DecidableEq

instance : Add Vec3 := ⟨fun a b => ⟨a.x + b.x, a.y + b.y, a.z + b.z⟩⟩

instance : Sub Vec3 := ⟨fun a b => ⟨a.x - b.x, a.y - b.y, a.z - b.z⟩⟩

instance : Neg Vec3 := ⟨fun a => ⟨-a.x, -a.y, -a.z⟩⟩

instance : SMul ℚ Vec3 := ⟨fun q v => ⟨q * v.x, q * v.y, q * v.z⟩⟩

/-- Zero vector, standing for Vec3::ZERO. -/
def Vec3.zero : Vec3 := ⟨0, 0, 0⟩

/-- All-ones vector, standing for Vec3::ONE. -/
def Vec3.one : Vec3 := ⟨1, 1, 1⟩

/-- Dot product of two vectors. -/
def Vec3.dot (a b : Vec3) : ℚ := a.x * b.x + a.y * b.y + a.z * b.z

/-- Squared length, standing for length_squared. -/
def Vec3.lengthSq (a : Vec3) : ℚ := a.x * a.x + a.y * a.y + a.z * a.z

/-- Componentwise product, standing for componentwise Vec3 multiplication. -/
def Vec3.cmul (a b : Vec3) : Vec3 := ⟨a.x * b.x, a.y * b.y, a.z * b.z⟩

/-- Scalar clamp, standing for f32 clamp: max with the lower bound, then min
with the upper bound. -/
def clampQ (c lo hi : ℚ) : ℚ := min hi (max lo c)

/-- Componentwise clamp, standing for Vec3 clamp. -/
def Vec3.clamp (v lo hi : Vec3) : Vec3 :=
  ⟨clampQ v.x lo.x hi.x, clampQ v.y lo.y hi.y, clampQ v.z lo.z hi.z⟩

/-- Linear interpolation a + t * (b - a), standing for Vec3 lerp. -/
def Vec3.lerp (a b : Vec3) (t : ℚ) : Vec3 := a + t • (b - a)

/-- Ray with origin and (not necessarily normalized) direction, from
raytracer vision.rs. -/
structure Ray where
  origin : Vec3
  direction : Vec3
deriving DecidableEq

/-- Point of the ray at parameter t, from Ray::at: origin + direction * t. -/
def Ray.at (r : Ray) (t : ℚ) : Vec3 := r.origin + t • r.direction

/-- Half-open parameter range, standing for ops::Range of f32. The source
field named end is called stop here because end is reserved in Lean. -/
structure TRange where
  start : ℚ
  stop : ℚ
deriving DecidableEq

/-- Membership test of Range::contains for a half-open range:
start <= t and t < stop. -/
def TRange.contains (t_r : TRange) (t : ℚ) : Prop :=
  t_r.start ≤ t ∧ t < t_r.stop

instance (t_r : TRange) (t : ℚ) : Decidable (t_r.contains t) :=
  inferInstanceAs (Decidable (_ ∧ _))

/-- Front or back face marker, from vision.rs. -/
inductive Face where
  | front
  | back
deriving DecidableEq

/-- Face flip, from the ops::Neg implementation on Face. -/
def Face.neg : Face → Face
  | Face.front => Face.back
  | Face.back => Face.front

/-- Lambertian material: albedo only, from materials.rs. -/
structure Lambertian where
  albedo : Vec3
deriving DecidableEq

/-- Metal material: albedo and fuzz, from materials.rs. -/
structure Metal where
  albedo : Vec3
  fuzz : ℚ
deriving DecidableEq

/-- Closed material sum type, from the MaterialEnum in materials.rs. -/
inductive MaterialEnum where
  | lambertian (m : Lambertian)
  | metal (m : Metal)
deriving DecidableEq

/-- Albedo of either material variant. -/
def MaterialEnum.albedo : MaterialEnum → Vec3
  | MaterialEnum.lambertian m => m.albedo
  | MaterialEnum.metal m => m.albedo

/-- Hit record, from vision.rs: hit point, parameter, normal, face flag and
the hit material.  The source field named at is called at' here because at is
reserved in Lean. -/
structure Hit where
  at' : Vec3
  t : ℚ
  normal : Vec3
  face : Face
  material : MaterialEnum
deriving DecidableEq

/-- Face correction from Hit::correct_face: when the stored normal has
positive dot product with the ray direction, negate the normal and flip the
face flag. -/
def Hit.correct_face (h : Hit) (r : Ray) : Hit :=
  if 0 < Vec3.dot h.normal r.direction then
    { h with normal := -h.normal, face := h.face.neg }
  else h

/-- Sphere primitive, from primitives.rs: center, radius, material. -/
structure Sphere where
  center : Vec3
  radius : ℚ
  material : MaterialEnum
deriving DecidableEq

/-- Discriminant of the sphere-ray quadratic, the value d computed inside
Sphere::hit_with_ray_impl: with oc = origin - center, a = squared length of
the direction, b = oc dot direction, c = squared length of oc minus radius
squared, d = b^2 - a * c. -/
def Sphere.disc (s : Sphere) (r : Ray) : ℚ :=
  let oc := r.origin - s.center
  let a := r.direction.lengthSq
  let b := Vec3.dot oc r.direction
  let c := oc.lengthSq - s.radius ^ 2
  b ^ 2 - a * c

/-- Near quadratic root (-b - sqrt(d)) / a, with sd standing for the computed
square root of the discriminant. -/
def Sphere.near_root (s : Sphere) (sd : ℚ) (r : Ray) : ℚ :=
  (-(Vec3.dot (r.origin - s.center) r.direction) - sd) / r.direction.lengthSq

/-- Sphere intersection from Sphere::hit_with_ray_impl.  The parameter sd
stands for the f32 value d.sqrt(); it is constrained by hypotheses in the
theorems (IsSqrt) and instantiated with exact square roots at concrete
inputs.  The source computes the near root only, filters it by the range, and
builds the face-corrected hit record. -/
def Sphere.hit_with_ray_impl (s : Sphere) (sd : ℚ) (r : Ray) (t_r : TRange) :
    Option Hit :=
  let oc := r.origin - s.center
  let a := r.direction.lengthSq
  let b := Vec3.dot oc r.direction
  let c := oc.lengthSq - s.radius ^ 2
  let d := b ^ 2 - a * c
  if 0 ≤ d then
    let t := (-b - sd) / a
    if t_r.contains t then
      let at1 := r.at t
      let normal := (1 / s.radius) • (at1 - s.center)
      some (Hit.correct_face
        { at' := at1, t := t, normal := normal, face := Face.front,
          material := s.material } r)
    else none
  else none

/-- Exact square-root relation used to constrain the abstracted f32 sqrt. -/
def IsSqrt (x s : ℚ) : Prop := 0 ≤ s ∧ s * s = x

instance (x s : ℚ) : Decidable (IsSqrt x s) :=
  inferInstanceAs (Decidable (_ ∧ _))

/-- Closest-hit fold from Ray::hit_collection: scan the primitives, and on
each hit record it and shrink the upper bound of the range to that hit's t.
Each sphere is paired with the value standing for the square root of its
discriminant. -/
def Ray.hit_collection_aux (r : Ray) :
    List (Sphere × ℚ) → TRange → Option Hit → Option Hit
  | [], _, out => out
  | p :: rest, t_r, out =>
    match Sphere.hit_with_ray_impl p.1 p.2 r t_r with
    | some h => Ray.hit_collection_aux r rest { t_r with stop := h.t } (some h)
    | none => Ray.hit_collection_aux r rest t_r out

/-- Entry point of Ray::hit_collection: fold with no hit yet. -/
def Ray.hit_collection (r : Ray) (l : List (Sphere × ℚ)) (t_r : TRange) :
    Option Hit :=
  Ray.hit_collection_aux r l t_r none

/-- Scattered ray plus attenuation, from the Scatter struct in materials.rs. -/
structure Scatter where
  attenuation : Vec3
  ray : Ray
deriving DecidableEq

/-- Mirror reflection from the reflect helper in materials.rs:
direction - 2 * project_onto_normalized(direction, normal), where the
projection onto the unit normal is (direction dot normal) * normal. -/
def reflect (direction normal : Vec3) : Vec3 :=
  direction - (2 * Vec3.dot direction normal) • normal

/-- Lambertian scatter from Lambertian::scatter.  The unit-sphere sample
drawn from the RNG is the parameter u; lenOr is the oracle for the f32 length
used by normalize, so (1 / lenOr v) smul v stands for v.normalize().  The
sampled direction is the normal plus u; when it is the zero vector the
surface normal is substituted, otherwise the direction is normalized. -/
def Lambertian.scatter (m : Lambertian) (hit : Hit) (u : Vec3)
    (lenOr : Vec3 → ℚ) : Option Scatter :=
  let d0 := hit.normal + u
  let direction := if d0 = Vec3.zero then hit.normal else (1 / lenOr d0) • d0
  some { attenuation := m.albedo,
         ray := { origin := hit.at', direction := direction } }

/-- Metal scatter from Metal::scatter: reflect the incoming direction about
the normal, perturb by fuzz times the unit-sphere sample u, reject (return
none) unless the perturbed direction has positive dot product with the
normal, and otherwise return the normalized direction from the hit point. -/
def Metal.scatter (m : Metal) (rdir : Vec3) (hit : Hit) (u : Vec3)
    (lenOr : Vec3 → ℚ) : Option Scatter :=
  let reflection := reflect rdir hit.normal
  let direction := reflection + m.fuzz • u
  if 0 < Vec3.dot direction hit.normal then
    some { attenuation := m.albedo,
           ray := { origin := hit.at', direction := (1 / lenOr direction) • direction } }
  else none

/-- Material dispatch of scatter over the closed variant set. -/
def MaterialEnum.scatter (m : MaterialEnum) (rdir : Vec3) (hit : Hit)
    (u : Vec3) (lenOr : Vec3 → ℚ) : Option Scatter :=
  match m with
  | MaterialEnum.lambertian l => l.scatter hit u lenOr
  | MaterialEnum.metal mm => mm.scatter rdir hit u lenOr

/-- Modelled from the spec: the recursive shading integrator raytracer::color
is absent from the source snapshot (the raytracer lib.rs present is the GPU
front end), so it is modelled from spec section 4.2: at depth 0 return black;
on a hit, invoke the material scatter and either return black (absorbed) or
the componentwise product of the attenuation with the recursive color of the
scattered ray at depth - 1; on a miss, return the background gradient, a
linear interpolation between white and sky blue driven by the normalized
direction's vertical component (the gradient constants follow ray_color in
the render crate).  The RNG is abstracted as the stream samp of unit-sphere
samples indexed by remaining depth, and lenOr is the normalization oracle. -/
def color (scene : List (Sphere × ℚ)) (t_r : TRange) (samp : ℕ → Vec3)
    (lenOr : Vec3 → ℚ) (r : Ray) : ℕ → Vec3
  | 0 => Vec3.zero
  | depth + 1 =>
    match r.hit_collection scene t_r with
    | some h =>
      match h.material.scatter r.direction h (samp depth) lenOr with
      | none => Vec3.zero
      | some sc =>
        Vec3.cmul sc.attenuation (color scene t_r samp lenOr sc.ray depth)
    | none =>
      let n := (1 / lenOr r.direction) • r.direction
      let t := (1 / 2) * (n.y + 1)
      Vec3.lerp ⟨1, 1, 1⟩ ⟨1 / 2, 7 / 10, 1⟩ t

/-- Floor to a natural number: the saturating f64-to-usize cast of a
nonnegative floor, as in the cpu-runner batch size computations (negative
values saturate to zero, matching the cast). -/
def floorNat (q : ℚ) : ℕ := Int.toNat (Int.floor q)

/-- Clamp to at least one, from NonZeroUsize::new(n).unwrap_or(1): zero is
replaced by one, every other value is kept. -/
def non_zero_or_one (n : ℕ) : ℕ := if n = 0 then 1 else n

/-- Initial batch size from cpu-runner renderer.rs lines 41 to 56: time one
representative multisampled pixel, divide the target update interval u by the
measured cost e, floor, and clamp to at least one. -/
def init_ppf (u e : ℚ) : ℕ := non_zero_or_one (floorNat (u / e))

/-- Observation a render job makes while holding the framebuffer lock: the
strong count of the liveness token and the byte length of the shared frame. -/
structure Obs where
  strong : ℕ
  frameLen : ℕ
deriving DecidableEq

/-- Terminal error of a render job, from the RenderError enum. -/
inductive RenderError where
  | cancel
  | resize
deriving DecidableEq

/-- Record of one committed batch: its batch index, the half-open column
range that was copied into the shared buffer, and the batch size that was
recomputed for the following batch. -/
structure Commit where
  idx : ℕ
  cs : ℕ
  ce : ℕ
  ppfNext : ℕ
deriving DecidableEq

/-- Per-row batch loop of the render job in cpu-runner renderer.rs lines 58
to 114, for one rayon row task.  Parameters: w and h are the job's expected
width and height, u the target update interval, env the state of the world
(strong count of the liveness token and shared frame byte length) observed at
each lock acquisition, el the elapsed wall time measured for each batch; the
loop state is the batch index k and the current column range cs to ce.  Each
iteration renders the range (pure computation, abstracted), recomputes the
batch size as floor(range length times u / elapsed) clamped to at least one,
then under the lock checks the liveness token and the frame length, aborting
with Cancel or Resize without committing on failure, and otherwise commits
the batch and either finishes the row or continues with the next range.
Rendering work and the copied bytes do not affect control flow and are
omitted; commits are recorded as events.  Fuel bounds the recursion; none
means the fuel ran out. -/
def run_row (w h : ℕ) (u : ℚ) (env : ℕ → Obs) (el : ℕ → ℚ) :
    ℕ → ℕ → ℕ → ℕ → Option (Except RenderError Unit) × List Commit
  | 0, _, _, _ => (none, [])
  | fuel + 1, k, cs, ce =>
    let ppf := non_zero_or_one (floorNat (((ce - cs : ℕ) : ℚ) * (u / el k)))
    if (env k).strong = 0 then (some (Except.error RenderError.cancel), [])
    else if (env k).frameLen ≠ w * h * 4 then
      (some (Except.error RenderError.resize), [])
    else
      let c : Commit := ⟨k, cs, ce, ppf⟩
      if w < ce + ppf then (some (Except.ok ()), [c])
      else
        let rest := run_row w h u env el fuel (k + 1) ce (ce + ppf)
        (rest.1, c :: rest.2)

/-- Whole-row run: the initial column range is 0 to the minimum of the
initial batch size and the width, as in the source. -/
def run_row_from_start (w h : ℕ) (u : ℚ) (env : ℕ → Obs) (el : ℕ → ℚ)
    (ppf0 fuel : ℕ) : Option (Except RenderError Unit) × List Commit :=
  run_row w h u env el fuel 0 0 (min ppf0 w)

/-- Piecewise sRGB channel encoding plus 8-bit quantization from
linear_to_srgb in cpu-runner renderer.rs: the linear segment 12.92 * c below
the threshold 0.0031308, the power curve 1.055 * c^(1/2.4) - 0.055 above,
then (s * 256).clamp(0, 255) truncated to an integer.  The transcendental
power c^(1/2.4) is abstracted as the function parameter pw. -/
def srgb_channel (pw : ℚ → ℚ) (c : ℚ) : ℕ :=
  let s := if c ≤ 31308 / 10000000 then (1292 / 100) * c
           else (1055 / 1000) * pw c - 55 / 1000
  floorNat (clampQ (s * 256) 0 255)

/-- Output conversion of a linear color and alpha to four bytes, from
linear_to_srgb applied to Vec4::from((avg, 1.0)). -/
def linear_to_srgb (pw : ℚ → ℚ) (c : Vec3) (alpha : ℚ) : ℕ × ℕ × ℕ × ℕ :=
  (srgb_channel pw c.x, srgb_channel pw c.y, srgb_channel pw c.z,
   srgb_channel pw alpha)

/-- Sum of the per-sample colors after each sample is clamped to the unit
cube, from the reduce in multisampled_color (the sample function stands for
the raytraced color of the i-th jittered sample). -/
def sum_clamped (sample : ℕ → Vec3) : ℕ → Vec3
  | 0 => Vec3.zero
  | n + 1 => sum_clamped sample n + Vec3.clamp (sample n) Vec3.zero Vec3.one

/-- Averaged color of multisampled_color: the clamped sample sum divided by
the sample count. -/
def avg_color (sample : ℕ → Vec3) (n : ℕ) : Vec3 :=
  (1 / (n : ℚ)) • sum_clamped sample n

/-- Pixel conversion pipeline of multisampled_color: average the clamped
samples, then encode through linear_to_srgb with alpha one. -/
def multisampled_color (pw : ℚ → ℚ) (sample : ℕ → Vec3) (n : ℕ) :
    ℕ × ℕ × ℕ × ℕ :=
  linear_to_srgb pw (avg_color sample n) 1

/-- Specification-side channel conversion, following the spec words of
section 4.3 for comparison with the code pipeline: clamp the averaged value
to the unit interval first, then apply the piecewise transform and
quantize. -/
def spec_srgb_conversion (pw : ℚ → ℚ) (c : ℚ) : ℕ :=
  srgb_channel pw (clampQ c 0 1)

/-- Largest u32 value. -/
def u32max : ℕ := 4294967295

/-- Saturating u32 increment, from sample_count.saturating_add(1). -/
def sat_add_one (n : ℕ) : ℕ := min (n + 1) u32max

/-- Temporal blend weight update from State::redraw in raytracer lib.rs lines
299 to 307: after the saturating increment of the frame count the weight is
the configured maximum framebuffer weight min-ed with count / (count + 1).
The denominator count + 1 is a u32 addition and wraps at 2^32; the f32
division of the positive numerator by the resulting zero yields positive
infinity, whose min with the finite maximum weight is the maximum weight,
which the wrap branch returns. -/
def redraw_weight (maxW : ℚ) (n : ℕ) : ℚ :=
  let count : ℕ := sat_add_one n
  let den : ℕ := (count + 1) % 2 ^ 32
  if den = 0 then maxW else min maxW ((count : ℚ) / (den : ℚ))


/-- Concrete inputs used by witnesses and counterexamples. -/
def c1_sphere : Sphere := ⟨⟨0, 0, 0⟩, 1, MaterialEnum.lambertian ⟨⟨0, 0, 0⟩⟩⟩

/-- Ray starting at the center of c1_sphere, the camera-inside-sphere case. -/
def c1_ray : Ray := ⟨⟨0, 0, 0⟩, ⟨1, 0, 0⟩⟩

/-- Valid parameter range used by the concrete intersection examples. -/
def c1_range : TRange := ⟨1 / 1000, 100⟩

/-- Sphere of the spec's hit-correctness example: center (0,0,-1), radius
one half. -/
def c6_sphere : Sphere :=
  ⟨⟨0, 0, -1⟩, 1 / 2, MaterialEnum.lambertian ⟨⟨7 / 10, 3 / 10, 3 / 10⟩⟩⟩

/-- Ray from the origin along the negative z axis. -/
def c6_ray : Ray := ⟨⟨0, 0, 0⟩, ⟨0, 0, -1⟩⟩

/-- The hit produced by c6_sphere and c6_ray: t one half, normal (0,0,1),
front face. -/
def c6_hit : Hit :=
  ⟨⟨0, 0, -1 / 2⟩, 1 / 2, ⟨0, 0, 1⟩, Face.front,
   MaterialEnum.lambertian ⟨⟨7 / 10, 3 / 10, 3 / 10⟩⟩⟩

/-- First sphere of the tangency tie pair: tangent to c4_ray at the origin
from above. -/
def c4_sA : Sphere := ⟨⟨0, 1, 0⟩, 1, MaterialEnum.lambertian ⟨⟨1, 0, 0⟩⟩⟩

/-- Second sphere of the tangency tie pair: tangent to c4_ray at the origin
from below, with a different radius and material. -/
def c4_sB : Sphere := ⟨⟨0, -2, 0⟩, 2, MaterialEnum.metal ⟨⟨0, 1, 0⟩, 0⟩⟩

/-- Ray along the x axis touching both tie spheres at t = 1. -/
def c4_ray : Ray := ⟨⟨-1, 0, 0⟩, ⟨1, 0, 0⟩⟩

/-- Concrete single-sphere scene for the closest-hit witness. -/
def c4w_scene : List (Sphere × ℚ) := [(c6_sphere, 1 / 2)]

/-- Concrete material for the scatter witnesses. -/
def c5_mat : MaterialEnum := MaterialEnum.lambertian ⟨⟨1 / 2, 1 / 2, 1 / 2⟩⟩

/-- Concrete hit record for the scatter witnesses: unit normal (0,0,1). -/
def c5_hit : Hit := ⟨⟨0, 0, 0⟩, 1, ⟨0, 0, 1⟩, Face.front, c5_mat⟩

/-- The scatter produced by c5_mat at c5_hit with sample (0,0,1) and length
oracle two. -/
def c5_scat : Scatter := ⟨⟨1 / 2, 1 / 2, 1 / 2⟩, ⟨⟨0, 0, 0⟩, ⟨0, 0, 1⟩⟩⟩

/-- Concrete Lambertian material for the unit-direction witness. -/
def c10_lam : Lambertian := ⟨⟨1 / 2, 1 / 2, 1 / 2⟩⟩

/-- Concrete environment for the scheduler witnesses: alive with the correct
frame length at batch zero, cancelled afterwards. -/
def c2_env : ℕ → Obs := fun k => if k = 0 then ⟨1, 20⟩ else ⟨0, 20⟩

/-- Concrete environment for the batch-size witness: always alive, correct
frame length. -/
def c3_env : ℕ → Obs := fun _ => ⟨1, 20⟩

/-- Componentwise subtraction on constructors, for concrete evaluation. -/
@[simp] theorem Vec3.sub_mk (a b c d e f : ℚ) :
    Vec3.mk a b c - Vec3.mk d e f = Vec3.mk (a - d) (b - e) (c - f) := rfl

/-- Componentwise addition on constructors, for concrete evaluation. -/
@[simp] theorem Vec3.add_mk (a b c d e f : ℚ) :
    Vec3.mk a b c + Vec3.mk d e f = Vec3.mk (a + d) (b + e) (c + f) := rfl

/-- Componentwise negation on constructors, for concrete evaluation. -/
@[simp] theorem Vec3.neg_mk (a b c : ℚ) :
    -Vec3.mk a b c = Vec3.mk (-a) (-b) (-c) := rfl

/-- Componentwise scaling on constructors, for concrete evaluation. -/
@[simp] theorem Vec3.smul_mk (q a b c : ℚ) :
    q • Vec3.mk a b c = Vec3.mk (q * a) (q * b) (q * c) := rfl

/-- Dot product on constructors, for concrete evaluation. -/
@[simp] theorem Vec3.dot_mk (a b c d e f : ℚ) :
    Vec3.dot (Vec3.mk a b c) (Vec3.mk d e f) = a * d + b * e + c * f := rfl

/-- Squared length on constructors, for concrete evaluation. -/
@[simp] theorem Vec3.lengthSq_mk (a b c : ℚ) :
    Vec3.lengthSq (Vec3.mk a b c) = a * a + b * b + c * c := rfl

/-- Face correction never changes the parameter t. -/
theorem correct_face_t (h : Hit) (r : Ray) : (h.correct_face r).t = h.t := by
  unfold Hit.correct_face
  split <;> rfl

/-- Face correction never changes the hit point. -/
theorem correct_face_at (h : Hit) (r : Ray) : (h.correct_face r).at' = h.at' := by
  unfold Hit.correct_face
  split <;> rfl

/-- Face correction never changes the material. -/
theorem correct_face_material (h : Hit) (r : Ray) :
    (h.correct_face r).material = h.material := by
  unfold Hit.correct_face
  split <;> rfl

/-- Characterization of the sphere intersection: it yields a hit exactly when
the discriminant is nonnegative and the near root is in range, and the hit is
the face-corrected record built at the near root. -/
theorem hit_impl_some_iff {s : Sphere} {sd : ℚ} {r : Ray} {t_r : TRange}
    {h : Hit} :
    Sphere.hit_with_ray_impl s sd r t_r = some h ↔
      0 ≤ Sphere.disc s r ∧ t_r.contains (Sphere.near_root s sd r) ∧
      h = Hit.correct_face
        { at' := r.at (Sphere.near_root s sd r),
          t := Sphere.near_root s sd r,
          normal := (1 / s.radius) • (r.at (Sphere.near_root s sd r) - s.center),
          face := Face.front, material := s.material } r := by
  simp only [Sphere.hit_with_ray_impl, Sphere.disc, Sphere.near_root]
  split_ifs with h1 h2
  · simp only [Option.some.injEq]
    constructor
    · intro he
      exact ⟨h1, h2, he.symm⟩
    · intro he
      exact he.2.2.symm
  · simp only [false_iff, not_and]
    intro _ hc
    exact absurd hc h2
  · simp only [false_iff, not_and]
    intro hd
    exact absurd hd h1

/-- The parameter of a returned sphere hit is the near root. -/
theorem hit_impl_t_eq {s : Sphere} {sd : ℚ} {r : Ray} {t_r : TRange} {h : Hit}
    (he : Sphere.hit_with_ray_impl s sd r t_r = some h) :
    h.t = Sphere.near_root s sd r := by
  obtain ⟨-, -, rfl⟩ := hit_impl_some_iff.mp he
  exact correct_face_t _ _

/-- The parameter of a returned sphere hit lies in the queried range. -/
theorem hit_impl_contains {s : Sphere} {sd : ℚ} {r : Ray} {t_r : TRange}
    {h : Hit} (he : Sphere.hit_with_ray_impl s sd r t_r = some h) :
    t_r.contains h.t := by
  obtain ⟨-, hc, -⟩ := hit_impl_some_iff.mp he
  rw [hit_impl_t_eq he]
  exact hc

/-- Widening the upper bound of the range preserves a sphere hit. -/
theorem hit_impl_stop_mono {s : Sphere} {sd : ℚ} {r : Ray}
    {t_r t_r2 : TRange} {h : Hit} (hs : t_r.start = t_r2.start)
    (he : t_r.stop ≤ t_r2.stop)
    (hh : Sphere.hit_with_ray_impl s sd r t_r = some h) :
    Sphere.hit_with_ray_impl s sd r t_r2 = some h := by
  obtain ⟨hd, hc, hrec⟩ := hit_impl_some_iff.mp hh
  exact hit_impl_some_iff.mpr
    ⟨hd, ⟨hs ▸ hc.1, lt_of_lt_of_le hc.2 he⟩, hrec⟩

/-- Narrowing the upper bound of the range preserves a sphere hit as long as
the hit parameter stays below the new bound. -/
theorem hit_impl_narrow {s : Sphere} {sd : ℚ} {r : Ray} {t_r : TRange}
    {h : Hit} {e : ℚ} (hh : Sphere.hit_with_ray_impl s sd r t_r = some h)
    (hlt : h.t < e) :
    Sphere.hit_with_ray_impl s sd r ⟨t_r.start, e⟩ = some h := by
  obtain ⟨hd, hc, hrec⟩ := hit_impl_some_iff.mp hh
  have ht := hit_impl_t_eq hh
  exact hit_impl_some_iff.mpr ⟨hd, ⟨hc.1, ht ▸ hlt⟩, hrec⟩

/-- Claim C9: the recursive shading integrator called with depth zero returns
black, regardless of the scene, the range, the random stream, the
normalization oracle and the ray. -/
theorem color_depth_zero_black (scene : List (Sphere × ℚ)) (t_r : TRange)
    (samp : ℕ → Vec3) (lenOr : Vec3 → ℚ) (r : Ray) :
    color scene t_r samp lenOr r 0 = Vec3.zero := rfl

/-- Claim C8: after the saturating frame-count increment, the temporal blend
weight never exceeds the configured maximum; below the u32 wrap corner it
equals the maximum min-ed with count / (count + 1); and the ratio
count / (count + 1) is monotone in the frame count, so the contribution of a
new frame shrinks as the count grows. -/
theorem redraw_weight_formula (maxW : ℚ) (n : ℕ) :
    redraw_weight maxW n ≤ maxW ∧
    (sat_add_one n + 1 < 2 ^ 32 →
      redraw_weight maxW n =
        min maxW ((sat_add_one n : ℚ) / ((sat_add_one n : ℚ) + 1))) ∧
    (∀ m : ℕ, m ≤ n →
      ((sat_add_one m : ℚ) / ((sat_add_one m : ℚ) + 1)) ≤
        ((sat_add_one n : ℚ) / ((sat_add_one n : ℚ) + 1))) := by
  refine ⟨?_, ?_, ?_⟩
  · unfold redraw_weight
    dsimp only
    split
    · exact le_refl _
    · exact min_le_left _ _
  · intro hlt
    unfold redraw_weight
    dsimp only
    rw [Nat.mod_eq_of_lt hlt]
    rw [if_neg (Nat.succ_ne_zero _)]
    push_cast
    rfl
  · intro m hm
    have hmono : sat_add_one m ≤ sat_add_one n := by
      unfold sat_add_one
      exact min_le_min (Nat.succ_le_succ hm) le_rfl
    have hmq : ((sat_add_one m : ℚ)) ≤ (sat_add_one n : ℚ) := by
      exact_mod_cast hmono
    have h0m : (0 : ℚ) ≤ (sat_add_one m : ℚ) := by positivity
    have h0n : (0 : ℚ) ≤ (sat_add_one n : ℚ) := by positivity
    rw [div_le_div_iff₀ (by linarith) (by linarith)]
    nlinarith

/-- Witness for redraw_weight_formula at frame count five and maximum weight
nine tenths. -/
theorem redraw_weight_formula_witness :
    redraw_weight (9 / 10) 5 =
      min ((9 : ℚ) / 10) ((sat_add_one 5 : ℚ) / ((sat_add_one 5 : ℚ) + 1)) :=
  (redraw_weight_formula (9 / 10) 5).2.1 (by decide)

/-- Claim C1 counterexample: for the camera-inside-sphere input, the
discriminant is nonnegative (with exact square root one) and the far root
(-b + sqrt(d)) / a lies inside the valid range, yet the intersection returns
no hit, because the implementation only ever tests the near root. -/
theorem sphere_hit_no_far_root_fallback :
    Sphere.hit_with_ray_impl c1_sphere 1 c1_ray c1_range = none ∧
    IsSqrt (Sphere.disc c1_sphere c1_ray) 1 ∧
    c1_range.contains
      ((-(Vec3.dot (c1_ray.origin - c1_sphere.center) c1_ray.direction) + 1) /
        Vec3.lengthSq c1_ray.direction) := by
  refine ⟨?_, ?_, ?_⟩
  · simp only [Sphere.hit_with_ray_impl, c1_sphere, c1_ray, c1_range]
    norm_num [TRange.contains]
  · norm_num [IsSqrt, Sphere.disc, c1_sphere, c1_ray]
  · norm_num [TRange.contains, c1_sphere, c1_ray, c1_range]

/-- Claim C1 as amended: sphere intersection computes only the near root
(-b - sqrt(d)) / a; it returns a hit exactly when the discriminant is
nonnegative and that near root lies inside the range, and any returned hit
sits at the near root.  There is no fallback to the far root. -/
theorem sphere_hit_near_root_only (s : Sphere) (sd : ℚ) (r : Ray)
    (t_r : TRange) :
    ((Sphere.hit_with_ray_impl s sd r t_r).isSome ↔
      0 ≤ Sphere.disc s r ∧ t_r.contains (Sphere.near_root s sd r)) ∧
    ∀ h : Hit, Sphere.hit_with_ray_impl s sd r t_r = some h →
      h.t = Sphere.near_root s sd r ∧ h.at' = r.at (Sphere.near_root s sd r) := by
  constructor
  · rw [Option.isSome_iff_exists]
    constructor
    · rintro ⟨h, hh⟩
      obtain ⟨hd, hc, -⟩ := hit_impl_some_iff.mp hh
      exact ⟨hd, hc⟩
    · rintro ⟨hd, hc⟩
      exact ⟨_, hit_impl_some_iff.mpr ⟨hd, hc, rfl⟩⟩
  · intro h hh
    obtain ⟨-, -, rfl⟩ := hit_impl_some_iff.mp hh
    exact ⟨correct_face_t _ _, correct_face_at _ _⟩

/-- Concrete evaluation of the spec's hit-correctness example: the sphere at
(0,0,-1) with radius one half, hit from the origin along (0,0,-1), yields the
hit at t one half with normal (0,0,1) on the front face. -/
theorem c6_hit_eval :
    Sphere.hit_with_ray_impl c6_sphere (1 / 2) c6_ray c1_range = some c6_hit := by
  simp only [Sphere.hit_with_ray_impl, c6_sphere, c6_ray, c1_range]
  norm_num [TRange.contains, Ray.at, Hit.correct_face, c6_hit]

/-- Witness for sphere_hit_near_root_only: the spec's hit-correctness example
returns its hit at the near root one half. -/
theorem sphere_hit_near_root_only_witness :
    c6_hit.t = Sphere.near_root c6_sphere (1 / 2) c6_ray ∧
    c6_hit.at' = c6_ray.at (Sphere.near_root c6_sphere (1 / 2) c6_ray) :=
  (sphere_hit_near_root_only c6_sphere (1 / 2) c6_ray c1_range).2 c6_hit
    c6_hit_eval

/-- Claim C6: a hit returned by the sphere intersection carries the negated
outward normal and the back-face mark exactly when the outward normal
(hit point minus center, divided by the radius) has positive dot product with
the ray direction, and the unchanged outward normal with the front-face mark
otherwise. -/
theorem sphere_hit_face_correction (s : Sphere) (sd : ℚ) (r : Ray)
    (t_r : TRange) (h : Hit)
    (hh : Sphere.hit_with_ray_impl s sd r t_r = some h) :
    (0 < Vec3.dot ((1 / s.radius) • (h.at' - s.center)) r.direction →
      h.normal = -((1 / s.radius) • (h.at' - s.center)) ∧ h.face = Face.back) ∧
    (¬ 0 < Vec3.dot ((1 / s.radius) • (h.at' - s.center)) r.direction →
      h.normal = (1 / s.radius) • (h.at' - s.center) ∧ h.face = Face.front) := by
  obtain ⟨-, -, rfl⟩ := hit_impl_some_iff.mp hh
  rw [correct_face_at]
  unfold Hit.correct_face
  dsimp only
  split
  · constructor
    · intro _
      exact ⟨rfl, rfl⟩
    · intro hn
      exact absurd (by assumption) hn
  · constructor
    · intro hn
      exact absurd hn (by assumption)
    · intro _
      exact ⟨rfl, rfl⟩

/-- Witness for sphere_hit_face_correction: the spec's hit-correctness
example is a front-face hit whose normal (0,0,1) is the unchanged outward
normal. -/
theorem sphere_hit_face_correction_witness :
    c6_hit.normal = (1 / c6_sphere.radius) • (c6_hit.at' - c6_sphere.center) ∧
    c6_hit.face = Face.front :=
  (sphere_hit_face_correction c6_sphere (1 / 2) c6_ray c1_range c6_hit
    c6_hit_eval).2 (by norm_num [c6_sphere, c6_hit, c6_ray])

/-- Squared length scales with the square of a scalar factor. -/
theorem lengthSq_smul (q : ℚ) (v : Vec3) :
    Vec3.lengthSq (q • v) = q ^ 2 * Vec3.lengthSq v := by
  cases v
  simp only [Vec3.smul_mk, Vec3.lengthSq_mk]
  ring

/-- A vector has squared length zero exactly when it is the zero vector. -/
theorem lengthSq_eq_zero_iff (v : Vec3) : Vec3.lengthSq v = 0 ↔ v = Vec3.zero := by
  cases v with
  | mk a b c =>
    simp only [Vec3.lengthSq_mk, Vec3.zero, Vec3.mk.injEq]
    constructor
    · intro h
      refine ⟨?_, ?_, ?_⟩ <;>
        nlinarith [mul_self_nonneg a, mul_self_nonneg b, mul_self_nonneg c]
    · rintro ⟨rfl, rfl, rfl⟩
      ring

/-- The dot product of the zero vector with anything is zero. -/
theorem dot_zero_left (v : Vec3) : Vec3.dot Vec3.zero v = 0 := by
  cases v
  simp [Vec3.zero]

/-- Claim C5: every returned scatter originates exactly at the hit point with
attenuation equal to the material albedo; Lambertian always scatters and
substitutes the surface normal when the sampled direction is the zero vector;
Metal absorbs (returns none) exactly when the fuzz-perturbed reflection has
non-positive dot product with the surface normal. -/
theorem scatter_contract (hit : Hit) (u : Vec3) (lenOr : Vec3 → ℚ) :
    (∀ m : Lambertian, ∃ s, Lambertian.scatter m hit u lenOr = some s) ∧
    (∀ (m : MaterialEnum) (rdir : Vec3) (s : Scatter),
      MaterialEnum.scatter m rdir hit u lenOr = some s →
      s.ray.origin = hit.at' ∧ s.attenuation = m.albedo) ∧
    (∀ m : Lambertian, hit.normal + u = Vec3.zero →
      Lambertian.scatter m hit u lenOr =
        some ⟨m.albedo, ⟨hit.at', hit.normal⟩⟩) ∧
    (∀ (m : Metal) (rdir : Vec3),
      Metal.scatter m rdir hit u lenOr = none ↔
        Vec3.dot (reflect rdir hit.normal + m.fuzz • u) hit.normal ≤ 0) := by
  refine ⟨?_, ?_, ?_, ?_⟩
  · intro m
    exact ⟨_, rfl⟩
  · intro m rdir s hs
    cases m with
    | lambertian l =>
      simp only [MaterialEnum.scatter, Lambertian.scatter,
        Option.some.injEq] at hs
      rw [← hs]
      exact ⟨rfl, rfl⟩
    | metal mm =>
      simp only [MaterialEnum.scatter, Metal.scatter] at hs
      split_ifs at hs with hpos
      · simp only [Option.some.injEq] at hs
        rw [← hs]
        exact ⟨rfl, rfl⟩
  · intro m hz
    unfold Lambertian.scatter
    dsimp only
    rw [if_pos hz]
  · intro m rdir
    simp only [Metal.scatter]
    split_ifs with hpos
    · constructor
      · intro hc
        exact hc.elim
      · intro hc
        exact absurd hpos (not_lt.mpr hc)
    · exact iff_of_true rfl (not_lt.mp hpos)

/-- Witness for scatter_contract: the concrete Lambertian scatter at c5_hit
originates at the hit point with attenuation the albedo. -/
theorem scatter_contract_witness :
    c5_scat.ray.origin = c5_hit.at' ∧ c5_scat.attenuation = c5_mat.albedo :=
  (scatter_contract c5_hit ⟨0, 0, 1⟩ (fun _ => 2)).2.1 c5_mat ⟨0, 0, 0⟩ c5_scat
    (by
      simp only [MaterialEnum.scatter, c5_mat, Lambertian.scatter, c5_hit,
        c5_scat, Option.some.injEq]
      norm_num [Vec3.zero])

/-- Claim C10: under the normalization-oracle hypotheses, every scatter
returned by either material variant has a unit-length direction: Lambertian
either reuses the unit surface normal or normalizes the nonzero sampled
direction, and Metal normalizes the fuzz-perturbed reflection. -/
theorem scatter_unit_direction (hit : Hit) (u : Vec3) (lenOr : Vec3 → ℚ)
    (hn : Vec3.lengthSq hit.normal = 1) :
    (∀ (m : Lambertian) (s : Scatter),
      lenOr (hit.normal + u) * lenOr (hit.normal + u) =
        Vec3.lengthSq (hit.normal + u) →
      Lambertian.scatter m hit u lenOr = some s →
      Vec3.lengthSq s.ray.direction = 1) ∧
    (∀ (m : Metal) (rdir : Vec3) (s : Scatter),
      lenOr (reflect rdir hit.normal + m.fuzz • u) *
          lenOr (reflect rdir hit.normal + m.fuzz • u) =
        Vec3.lengthSq (reflect rdir hit.normal + m.fuzz • u) →
      Metal.scatter m rdir hit u lenOr = some s →
      Vec3.lengthSq s.ray.direction = 1) := by
  constructor
  · intro m s hlen hs
    simp only [Lambertian.scatter, Option.some.injEq] at hs
    by_cases hz : hit.normal + u = Vec3.zero
    · rw [← hs]
      dsimp only
      rw [if_pos hz]
      exact hn
    · rw [← hs]
      dsimp only
      rw [if_neg hz]
      have hne : Vec3.lengthSq (hit.normal + u) ≠ 0 := by
        intro h0
        exact hz ((lengthSq_eq_zero_iff _).mp h0)
      have hl : lenOr (hit.normal + u) ≠ 0 := by
        intro h0
        rw [h0, mul_zero] at hlen
        exact hne hlen.symm
      rw [lengthSq_smul, ← hlen]
      field_simp
      ring
  · intro m rdir s hlen hs
    simp only [Metal.scatter] at hs
    split_ifs at hs with hpos
    simp only [Option.some.injEq] at hs
    rw [← hs]
    dsimp only
    have hz : reflect rdir hit.normal + m.fuzz • u ≠ Vec3.zero := by
      intro h0
      rw [h0, dot_zero_left] at hpos
      exact lt_irrefl 0 hpos
    have hne : Vec3.lengthSq (reflect rdir hit.normal + m.fuzz • u) ≠ 0 := by
      intro h0
      exact hz ((lengthSq_eq_zero_iff _).mp h0)
    have hl : lenOr (reflect rdir hit.normal + m.fuzz • u) ≠ 0 := by
      intro h0
      rw [h0, mul_zero] at hlen
      exact hne hlen.symm
    rw [lengthSq_smul, ← hlen]
    field_simp
    ring

/-- Witness for scatter_unit_direction: the concrete Lambertian scatter at
c5_hit has a unit-length direction. -/
theorem scatter_unit_direction_witness :
    Vec3.lengthSq c5_scat.ray.direction = 1 :=
  (scatter_unit_direction c5_hit ⟨0, 0, 1⟩ (fun _ => 2)
      (by norm_num [c5_hit])).1 c10_lam c5_scat
    (by norm_num [c5_hit])
    (by
      simp only [Lambertian.scatter, c10_lam, c5_hit, c5_scat,
        Option.some.injEq]
      norm_num [Vec3.zero])

/-- Projection of vector addition onto the x component. -/
@[simp] theorem Vec3.add_x (a b : Vec3) : (a + b).x = a.x + b.x := rfl

/-- Projection of vector addition onto the y component. -/
@[simp] theorem Vec3.add_y (a b : Vec3) : (a + b).y = a.y + b.y := rfl

/-- Projection of vector addition onto the z component. -/
@[simp] theorem Vec3.add_z (a b : Vec3) : (a + b).z = a.z + b.z := rfl

/-- Projection of scalar multiplication onto the x component. -/
@[simp] theorem Vec3.smul_x (q : ℚ) (a : Vec3) : (q • a).x = q * a.x := rfl

/-- Projection of scalar multiplication onto the y component. -/
@[simp] theorem Vec3.smul_y (q : ℚ) (a : Vec3) : (q • a).y = q * a.y := rfl

/-- Projection of scalar multiplication onto the z component. -/
@[simp] theorem Vec3.smul_z (q : ℚ) (a : Vec3) : (q • a).z = q * a.z := rfl

/-- The unit-interval clamp lands in the unit interval. -/
theorem clampQ01_mem (c : ℚ) : 0 ≤ clampQ c 0 1 ∧ clampQ c 0 1 ≤ 1 := by
  unfold clampQ
  constructor
  · exact le_min zero_le_one (le_max_left 0 c)
  · exact min_le_left 1 _

/-- The unit-interval clamp is the identity on the unit interval. -/
theorem clampQ01_eq_self {c : ℚ} (h0 : 0 ≤ c) (h1 : c ≤ 1) :
    clampQ c 0 1 = c := by
  unfold clampQ
  rw [max_eq_right h0, min_eq_right h1]

/-- Componentwise bounds for the clamped sample sum: each channel lies
between zero and the number of samples. -/
theorem sum_clamped_bounds (sample : ℕ → Vec3) (n : ℕ) :
    (0 ≤ (sum_clamped sample n).x ∧ (sum_clamped sample n).x ≤ n) ∧
    (0 ≤ (sum_clamped sample n).y ∧ (sum_clamped sample n).y ≤ n) ∧
    (0 ≤ (sum_clamped sample n).z ∧ (sum_clamped sample n).z ≤ n) := by
  induction n with
  | zero =>
    simp [sum_clamped, Vec3.zero]
  | succ n ih =>
    obtain ⟨⟨hx0, hx1⟩, ⟨hy0, hy1⟩, ⟨hz0, hz1⟩⟩ := ih
    have hcx := clampQ01_mem (sample n).x
    have hcy := clampQ01_mem (sample n).y
    have hcz := clampQ01_mem (sample n).z
    simp only [sum_clamped, Vec3.clamp, Vec3.zero, Vec3.one, Vec3.add_x,
      Vec3.add_y, Vec3.add_z, Nat.cast_succ]
    refine ⟨⟨?_, ?_⟩, ⟨?_, ?_⟩, ⟨?_, ?_⟩⟩ <;> dsimp only <;> linarith

/-- Componentwise bounds for the averaged color: each channel of the average
of the clamped samples lies in the unit interval. -/
theorem avg_color_mem (sample : ℕ → Vec3) (n : ℕ) :
    (0 ≤ (avg_color sample n).x ∧ (avg_color sample n).x ≤ 1) ∧
    (0 ≤ (avg_color sample n).y ∧ (avg_color sample n).y ≤ 1) ∧
    (0 ≤ (avg_color sample n).z ∧ (avg_color sample n).z ≤ 1) := by
  obtain ⟨⟨hx0, hx1⟩, ⟨hy0, hy1⟩, ⟨hz0, hz1⟩⟩ := sum_clamped_bounds sample n
  unfold avg_color
  cases n with
  | zero =>
    simp [sum_clamped, Vec3.zero]
  | succ n =>
    have hpos : (0 : ℚ) < ((n + 1 : ℕ) : ℚ) := by positivity
    have hinv : (0 : ℚ) ≤ 1 / ((n + 1 : ℕ) : ℚ) := by positivity
    simp only [Vec3.smul_x, Vec3.smul_y, Vec3.smul_z]
    refine ⟨⟨?_, ?_⟩, ⟨?_, ?_⟩, ⟨?_, ?_⟩⟩
    · exact mul_nonneg hinv hx0
    · rw [one_div, inv_mul_le_iff₀ hpos, mul_one]
      exact hx1
    · exact mul_nonneg hinv hy0
    · rw [one_div, inv_mul_le_iff₀ hpos, mul_one]
      exact hy1
    · exact mul_nonneg hinv hz0
    · rw [one_div, inv_mul_le_iff₀ hpos, mul_one]
      exact hz1

/-- Claim C7: every averaged channel lies in the unit interval, and the
conversion pipeline of multisampled_color produces exactly the bytes of the
spec-side conversion that clamps the averaged value to the unit interval,
applies the piecewise sRGB transform, and quantizes to eight bits (alpha is
the encoding of one). -/
theorem multisampled_color_srgb (pw : ℚ → ℚ) (sample : ℕ → Vec3) (n : ℕ) :
    (0 ≤ (avg_color sample n).x ∧ (avg_color sample n).x ≤ 1) ∧
    (0 ≤ (avg_color sample n).y ∧ (avg_color sample n).y ≤ 1) ∧
    (0 ≤ (avg_color sample n).z ∧ (avg_color sample n).z ≤ 1) ∧
    multisampled_color pw sample n =
      (spec_srgb_conversion pw (avg_color sample n).x,
       spec_srgb_conversion pw (avg_color sample n).y,
       spec_srgb_conversion pw (avg_color sample n).z,
       srgb_channel pw 1) := by
  obtain ⟨⟨hx0, hx1⟩, ⟨hy0, hy1⟩, ⟨hz0, hz1⟩⟩ := avg_color_mem sample n
  refine ⟨⟨hx0, hx1⟩, ⟨hy0, hy1⟩, ⟨hz0, hz1⟩, ?_⟩
  unfold multisampled_color linear_to_srgb spec_srgb_conversion
  rw [clampQ01_eq_self hx0 hx1, clampQ01_eq_self hy0 hy1,
    clampQ01_eq_self hz0 hz1]

/-- Claim C2: whenever the per-row batch loop ends in an error, there is a
failing observation batch j at or after the starting batch: a Cancel exit
observed a zero strong count and a Resize exit observed a live token but a
mismatched frame length, both under the lock taken for batch j; and every
batch that was committed lies strictly before j and passed both checks, so
nothing is copied at or after the failing observation. -/
theorem run_row_cancel_safety (w h : ℕ) (u : ℚ) (env : ℕ → Obs)
    (el : ℕ → ℚ) :
    ∀ (fuel k cs ce : ℕ) (e : RenderError) (cmts : List Commit),
      run_row w h u env el fuel k cs ce = (some (Except.error e), cmts) →
      ∃ j, k ≤ j ∧
        (e = RenderError.cancel → (env j).strong = 0) ∧
        (e = RenderError.resize →
          (env j).strong ≠ 0 ∧ (env j).frameLen ≠ w * h * 4) ∧
        ∀ c ∈ cmts, c.idx < j ∧ (env c.idx).strong ≠ 0 ∧
          (env c.idx).frameLen = w * h * 4 := by
  intro fuel
  induction fuel with
  | zero =>
    intro k cs ce e cmts hrun
    simp [run_row] at hrun
  | succ fuel ih =>
    intro k cs ce e cmts hrun
    simp only [run_row] at hrun
    split_ifs at hrun with h1 h2 h3
    · obtain ⟨he, hcm⟩ := Prod.mk.injEq .. |>.mp hrun
      injection he with he
      injection he with he
      refine ⟨k, le_refl k, fun _ => h1, ?_, ?_⟩
      · intro hres
        rw [← he] at hres
        exact absurd hres (by decide)
      · rw [← hcm]
        intro c hc
        exact absurd hc (List.not_mem_nil c)
    · obtain ⟨he, hcm⟩ := Prod.mk.injEq .. |>.mp hrun
      injection he with he
      injection he with he
      refine ⟨k, le_refl k, ?_, fun _ => ⟨h1, h2⟩, ?_⟩
      · intro hcan
        rw [← he] at hcan
        exact absurd hcan (by decide)
      · rw [← hcm]
        intro c hc
        exact absurd hc (List.not_mem_nil c)
    · obtain ⟨he, hcm⟩ := Prod.mk.injEq .. |>.mp hrun
      injection he with he
      exact absurd he (by simp)
    · obtain ⟨he, hcm⟩ := Prod.mk.injEq .. |>.mp hrun
      have hrest : run_row w h u env el fuel (k + 1) ce
          (ce + non_zero_or_one (floorNat (((ce - cs : ℕ) : ℚ) * (u / el k)))) =
          (some (Except.error e),
           (run_row w h u env el fuel (k + 1) ce
             (ce + non_zero_or_one (floorNat (((ce - cs : ℕ) : ℚ) * (u / el k))))).2) := by
        rw [← he]
      obtain ⟨j, hkj, hcan, hres, hcmts⟩ :=
        ih (k + 1) ce _ e _ hrest
      refine ⟨j, Nat.le_of_succ_le hkj, hcan, hres, ?_⟩
      intro c hc
      rw [← hcm] at hc
      rcases List.mem_cons.mp hc with hc0 | hcr
      · rw [hc0]
        exact ⟨Nat.lt_of_succ_le hkj, h1, not_not.mp h2⟩
      · exact hcmts c hcr

/-- Witness for run_row_cancel_safety: on a five-pixel row with the
environment that cancels after the first batch, the loop errors with Cancel,
and the theorem locates the failing observation after the single committed
batch. -/
theorem run_row_cancel_safety_witness :
    ∃ j, 0 ≤ j ∧
      (RenderError.cancel = RenderError.cancel → (c2_env j).strong = 0) ∧
      (RenderError.cancel = RenderError.resize →
        (c2_env j).strong ≠ 0 ∧ (c2_env j).frameLen ≠ 5 * 1 * 4) ∧
      ∀ c ∈ [(⟨0, 0, 2, 2⟩ : Commit)], c.idx < j ∧ (c2_env c.idx).strong ≠ 0 ∧
        (c2_env c.idx).frameLen = 5 * 1 * 4 :=
  run_row_cancel_safety 5 1 1 c2_env (fun _ => 1) 3 0 0 2 RenderError.cancel
    [⟨0, 0, 2, 2⟩]
    (by
      norm_num [run_row, c2_env, floorNat, non_zero_or_one]
      simp)

/-- The clamp of NonZeroUsize::new(n).unwrap_or(1) equals max 1 n. -/
theorem non_zero_or_one_eq_max (n : ℕ) : non_zero_or_one n = max 1 n := by
  unfold non_zero_or_one
  split_ifs with hn
  · simp [hn]
  · exact (max_eq_right (Nat.one_le_iff_ne_zero.mpr hn)).symm

/-- The clamped batch size is always at least one. -/
theorem one_le_non_zero_or_one (n : ℕ) : 1 ≤ non_zero_or_one n := by
  rw [non_zero_or_one_eq_max]
  exact le_max_left 1 n

/-- The first committed batch of a loop run starts at the loop's initial
batch index and column range. -/
theorem run_row_head (w h : ℕ) (u : ℚ) (env : ℕ → Obs) (el : ℕ → ℚ) :
    ∀ (fuel k cs ce : ℕ) (c : Commit) (rest2 : List Commit),
      (run_row w h u env el fuel k cs ce).2 = c :: rest2 →
      c.idx = k ∧ c.cs = cs ∧ c.ce = ce := by
  intro fuel
  cases fuel with
  | zero =>
    intro k cs ce c rest2 hrun
    simp [run_row] at hrun
  | succ fuel =>
    intro k cs ce c rest2 hrun
    simp only [run_row] at hrun
    split_ifs at hrun with h1 h2 h3
    all_goals
      obtain ⟨rfl, -⟩ := hrun
      exact ⟨rfl, rfl, rfl⟩

/-- Claim C3: the initial batch size is the floored quotient of the target
update interval by the measured cost of one representative pixel, clamped to
at least one; and along any loop run every committed batch records a next
batch size recomputed as the floor of the batch length times the target
interval over the elapsed time, clamped to at least one, with consecutive
batches chained so that each next range has exactly that recomputed size. -/
theorem run_row_batch_size_update (w h : ℕ) (u : ℚ) (env : ℕ → Obs)
    (el : ℕ → ℚ) :
    (∀ e0 : ℚ, 1 ≤ init_ppf u e0 ∧ init_ppf u e0 = max 1 (floorNat (u / e0))) ∧
    ∀ fuel k cs ce : ℕ,
      (∀ c ∈ (run_row w h u env el fuel k cs ce).2,
        1 ≤ c.ppfNext ∧
        c.ppfNext = max 1 (floorNat (((c.ce - c.cs : ℕ) : ℚ) * u / el c.idx))) ∧
      List.Chain' (fun c c2 => c2.idx = c.idx + 1 ∧ c2.cs = c.ce ∧
        c2.ce = c.ce + c.ppfNext) (run_row w h u env el fuel k cs ce).2 := by
  constructor
  · intro e0
    unfold init_ppf
    exact ⟨one_le_non_zero_or_one _, non_zero_or_one_eq_max _⟩
  · intro fuel
    induction fuel with
    | zero =>
      intro k cs ce
      simp [run_row]
    | succ fuel ih =>
      intro k cs ce
      simp only [run_row]
      split_ifs with h1 h2 h3
      · simp
      · simp
      · constructor
        · intro c hc
          rw [List.mem_singleton] at hc
          rw [hc]
          refine ⟨one_le_non_zero_or_one _, ?_⟩
          rw [non_zero_or_one_eq_max, mul_div_assoc]
        · exact List.chain'_singleton _
      · constructor
        · intro c hc
          rcases List.mem_cons.mp hc with hc0 | hcr
          · rw [hc0]
            refine ⟨one_le_non_zero_or_one _, ?_⟩
            rw [non_zero_or_one_eq_max, mul_div_assoc]
          · exact (ih (k + 1) ce _).1 c hcr
        · rw [List.chain'_cons']
          refine ⟨?_, (ih (k + 1) ce _).2⟩
          intro y hy
          cases hrest : (run_row w h u env el fuel (k + 1) ce
              (ce + non_zero_or_one
                (floorNat (((ce - cs : ℕ) : ℚ) * (u / el k))))).2 with
          | nil =>
            rw [hrest] at hy
            simp at hy
          | cons y0 tl =>
            rw [hrest] at hy
            simp only [List.head?_cons, Option.mem_def, Option.some.injEq] at hy
            obtain ⟨hidx, hcs2, hce2⟩ :=
              run_row_head w h u env el fuel (k + 1) ce _ y0 tl hrest
            rw [← hy]
            exact ⟨hidx, hcs2, hce2⟩

/-- Witness for run_row_batch_size_update: in the concrete always-alive run,
the first committed batch (columns zero to two) records a recomputed batch
size of two, which is at least one and matches the feedback formula. -/
theorem run_row_batch_size_update_witness :
    1 ≤ (⟨0, 0, 2, 2⟩ : Commit).ppfNext ∧
    (⟨0, 0, 2, 2⟩ : Commit).ppfNext =
      max 1 (floorNat
        ((((⟨0, 0, 2, 2⟩ : Commit).ce - (⟨0, 0, 2, 2⟩ : Commit).cs : ℕ) : ℚ) *
          1 / (fun _ => (1 : ℚ)) (⟨0, 0, 2, 2⟩ : Commit).idx)) :=
  ((run_row_batch_size_update 5 1 1 c3_env (fun _ => 1)).2 3 0 0 2).1
    ⟨0, 0, 2, 2⟩
    (by
      norm_num [run_row, c3_env, floorNat, non_zero_or_one]
      simp)

/-- Once the fold holds a hit, it never returns none. -/
theorem aux_isSome_of_some (r : Ray) :
    ∀ (l : List (Sphere × ℚ)) (t_r : TRange) (h0 : Hit),
      (Ray.hit_collection_aux r l t_r (some h0)).isSome := by
  intro l
  induction l with
  | nil =>
    intro t_r h0
    rfl
  | cons p rest ih =>
    intro t_r h0
    cases hh : Sphere.hit_with_ray_impl p.1 p.2 r t_r with
    | some h1 =>
      simp only [Ray.hit_collection_aux, hh]
      exact ih _ h1
    | none =>
      simp only [Ray.hit_collection_aux, hh]
      exact ih _ h0

/-- The fold's result parameter never exceeds the current upper bound,
provided the carried hit already satisfies the bound. -/
theorem aux_bound (r : Ray) :
    ∀ (l : List (Sphere × ℚ)) (t_r : TRange) (out : Option Hit) (h : Hit),
      Ray.hit_collection_aux r l t_r out = some h →
      (∀ h0, out = some h0 → h0.t ≤ t_r.stop) →
      h.t ≤ t_r.stop := by
  intro l
  induction l with
  | nil =>
    intro t_r out h ha hout
    exact hout h ha
  | cons p rest ih =>
    intro t_r out h ha hout
    cases hh : Sphere.hit_with_ray_impl p.1 p.2 r t_r with
    | some h1 =>
      simp only [Ray.hit_collection_aux, hh] at ha
      have hb : h.t ≤ h1.t := by
        refine ih _ _ h ha ?_
        intro h0 he
        exact le_of_eq (congrArg Hit.t (Option.some.inj he).symm)
      exact le_trans hb (le_of_lt (hit_impl_contains hh).2)
    | none =>
      simp only [Ray.hit_collection_aux, hh] at ha
      exact ih _ _ h ha hout

/-- Any hit produced by the fold that is not the carried one comes from a
listed sphere, intersected against the original range. -/
theorem aux_mem (r : Ray) :
    ∀ (l : List (Sphere × ℚ)) (t_r : TRange) (out : Option Hit) (h : Hit),
      Ray.hit_collection_aux r l t_r out = some h →
      out = some h ∨
        ∃ p ∈ l, Sphere.hit_with_ray_impl p.1 p.2 r t_r = some h := by
  intro l
  induction l with
  | nil =>
    intro t_r out h ha
    exact Or.inl ha
  | cons p rest ih =>
    intro t_r out h ha
    cases hh : Sphere.hit_with_ray_impl p.1 p.2 r t_r with
    | some h1 =>
      simp only [Ray.hit_collection_aux, hh] at ha
      rcases ih _ _ h ha with hout | ⟨q, hq, hqe⟩
      · have h1h := Option.some.inj hout
        rw [h1h] at hh
        exact Or.inr ⟨p, List.mem_cons_self p rest, hh⟩
      · have hwiden : Sphere.hit_with_ray_impl q.1 q.2 r t_r = some h :=
          @hit_impl_stop_mono q.1 q.2 r { t_r with stop := h1.t } t_r h rfl
            (le_of_lt (hit_impl_contains hh).2) hqe
        exact Or.inr ⟨q, List.mem_cons_of_mem p hq, hwiden⟩
    | none =>
      simp only [Ray.hit_collection_aux, hh] at ha
      rcases ih _ _ h ha with hout | ⟨q, hq, hqe⟩
      · exact Or.inl hout
      · exact Or.inr ⟨q, List.mem_cons_of_mem p hq, hqe⟩

/-- The fold's hit parameter is minimal among the in-range hits of the listed
spheres, provided the carried hit already satisfies the bound. -/
theorem aux_min (r : Ray) :
    ∀ (l : List (Sphere × ℚ)) (t_r : TRange) (out : Option Hit) (h : Hit),
      Ray.hit_collection_aux r l t_r out = some h →
      (∀ h0, out = some h0 → h0.t ≤ t_r.stop) →
      ∀ p ∈ l, ∀ h2, Sphere.hit_with_ray_impl p.1 p.2 r t_r = some h2 →
        h.t ≤ h2.t := by
  intro l
  induction l with
  | nil =>
    intro t_r out h ha hout p hp
    exact absurd hp (List.not_mem_nil p)
  | cons p0 rest ih =>
    intro t_r out h ha hout p hp h2 he2
    cases hh : Sphere.hit_with_ray_impl p0.1 p0.2 r t_r with
    | some h1 =>
      simp only [Ray.hit_collection_aux, hh] at ha
      have hbound : h.t ≤ h1.t := by
        refine aux_bound r rest _ _ h ha ?_
        intro h0 he
        exact le_of_eq (congrArg Hit.t (Option.some.inj he).symm)
      rcases List.mem_cons.mp hp with hp0 | hpr
      · rw [hp0, hh] at he2
        rw [← Option.some.inj he2]
        exact hbound
      · by_cases hlt : h2.t < h1.t
        · have hnarrow := hit_impl_narrow he2 hlt
          refine ih _ _ h ha ?_ p hpr h2 hnarrow
          intro h0 he
          exact le_of_eq (congrArg Hit.t (Option.some.inj he).symm)
        · push_neg at hlt
          exact le_trans hbound hlt
    | none =>
      simp only [Ray.hit_collection_aux, hh] at ha
      rcases List.mem_cons.mp hp with hp0 | hpr
      · rw [hp0, hh] at he2
        exact absurd he2 (by simp)
      · exact ih _ _ h ha hout p hpr h2 he2

/-- When the fold starting empty returns none, no listed sphere intersects
the range. -/
theorem aux_none (r : Ray) :
    ∀ (l : List (Sphere × ℚ)) (t_r : TRange),
      Ray.hit_collection_aux r l t_r none = none →
      ∀ p ∈ l, Sphere.hit_with_ray_impl p.1 p.2 r t_r = none := by
  intro l
  induction l with
  | nil =>
    intro t_r ha p hp
    exact absurd hp (List.not_mem_nil p)
  | cons p0 rest ih =>
    intro t_r ha p hp
    cases hh : Sphere.hit_with_ray_impl p0.1 p0.2 r t_r with
    | some h1 =>
      simp only [Ray.hit_collection_aux, hh] at ha
      have hsome := aux_isSome_of_some r rest { t_r with stop := h1.t } h1
      rw [ha] at hsome
      simp at hsome
    | none =>
      simp only [Ray.hit_collection_aux, hh] at ha
      rcases List.mem_cons.mp hp with hp0 | hpr
      · rw [hp0]
        exact hh
      · exact ih _ ha p hpr

/-- Claim C4 counterexample: the two spheres tangent to the ray at the same
point give exact square roots zero for both discriminants, the two orderings
are permutations of one another, yet the closest-hit scan returns different
hit records, so the result is not independent of primitive order. -/
theorem hit_collection_order_dependent :
    Ray.hit_collection c4_ray [(c4_sA, 0), (c4_sB, 0)] c1_range ≠
      Ray.hit_collection c4_ray [(c4_sB, 0), (c4_sA, 0)] c1_range ∧
    IsSqrt (Sphere.disc c4_sA c4_ray) 0 ∧
    IsSqrt (Sphere.disc c4_sB c4_ray) 0 ∧
    List.Perm [(c4_sA, 0), (c4_sB, 0)] [(c4_sB, 0), (c4_sA, 0)] := by
  have hA : Sphere.hit_with_ray_impl c4_sA 0 c4_ray ⟨1 / 1000, 100⟩ =
      some ⟨⟨0, 0, 0⟩, 1, ⟨0, -1, 0⟩, Face.front, c4_sA.material⟩ := by
    simp only [Sphere.hit_with_ray_impl, c4_sA, c4_ray]
    norm_num [TRange.contains, Ray.at, Hit.correct_face]
  have hB : Sphere.hit_with_ray_impl c4_sB 0 c4_ray ⟨1 / 1000, 100⟩ =
      some ⟨⟨0, 0, 0⟩, 1, ⟨0, 1, 0⟩, Face.front, c4_sB.material⟩ := by
    simp only [Sphere.hit_with_ray_impl, c4_sB, c4_ray]
    norm_num [TRange.contains, Ray.at, Hit.correct_face]
  have hAn : Sphere.hit_with_ray_impl c4_sA 0 c4_ray ⟨1 / 1000, 1⟩ = none := by
    simp only [Sphere.hit_with_ray_impl, c4_sA, c4_ray]
    norm_num [TRange.contains]
  have hBn : Sphere.hit_with_ray_impl c4_sB 0 c4_ray ⟨1 / 1000, 1⟩ = none := by
    simp only [Sphere.hit_with_ray_impl, c4_sB, c4_ray]
    norm_num [TRange.contains]
  refine ⟨?_, ?_, ?_, List.Perm.swap (c4_sB, 0) (c4_sA, 0) []⟩
  · have e1 : Ray.hit_collection c4_ray [(c4_sA, 0), (c4_sB, 0)] c1_range =
        some ⟨⟨0, 0, 0⟩, 1, ⟨0, -1, 0⟩, Face.front, c4_sA.material⟩ := by
      simp only [Ray.hit_collection, Ray.hit_collection_aux, c1_range, hA, hBn]
    have e2 : Ray.hit_collection c4_ray [(c4_sB, 0), (c4_sA, 0)] c1_range =
        some ⟨⟨0, 0, 0⟩, 1, ⟨0, 1, 0⟩, Face.front, c4_sB.material⟩ := by
      simp only [Ray.hit_collection, Ray.hit_collection_aux, c1_range, hB, hAn]
    rw [e1, e2]
    simp [c4_sA, c4_sB]
  · norm_num [IsSqrt, Sphere.disc, c4_sA, c4_ray]
  · norm_num [IsSqrt, Sphere.disc, c4_sB, c4_ray]

/-- Claim C4 as amended: the closest-hit scan returns a hit whose parameter
lies in the range, comes from one of the listed spheres intersected against
the full range, and is minimal among all in-range hits; when it returns none
no listed sphere has an in-range hit; and the minimal parameter (and hit
existence) is independent of the order of the primitives.  The full hit
record can differ between orderings only at an exact tie, where the
earliest-listed primitive wins. -/
theorem hit_collection_closest (r : Ray) (l : List (Sphere × ℚ))
    (t_r : TRange) :
    (∀ h, Ray.hit_collection r l t_r = some h →
      t_r.contains h.t ∧
      (∃ p ∈ l, Sphere.hit_with_ray_impl p.1 p.2 r t_r = some h) ∧
      ∀ p ∈ l, ∀ h2, Sphere.hit_with_ray_impl p.1 p.2 r t_r = some h2 →
        h.t ≤ h2.t) ∧
    (Ray.hit_collection r l t_r = none →
      ∀ p ∈ l, Sphere.hit_with_ray_impl p.1 p.2 r t_r = none) ∧
    (∀ l2, l.Perm l2 →
      Option.map Hit.t (Ray.hit_collection r l t_r) =
        Option.map Hit.t (Ray.hit_collection r l2 t_r)) := by
  refine ⟨?_, ?_, ?_⟩
  · intro h ha
    rcases aux_mem r l t_r none h ha with hout | ⟨p, hp, hpe⟩
    · exact absurd hout (by simp)
    · refine ⟨hit_impl_contains hpe, ⟨p, hp, hpe⟩, ?_⟩
      exact aux_min r l t_r none h ha (fun h0 he => Option.noConfusion he)
  · intro ha
    exact aux_none r l t_r ha
  · intro l2 hperm
    cases e1 : Ray.hit_collection r l t_r with
    | none =>
      cases e2 : Ray.hit_collection r l2 t_r with
      | none => rfl
      | some h2 =>
        obtain ⟨p, hp, hpe⟩ :=
          (aux_mem r l2 t_r none h2 e2).resolve_left (by simp)
        have hn := aux_none r l t_r e1 p (hperm.mem_iff.mpr hp)
        rw [hn] at hpe
        exact absurd hpe (by simp)
    | some h1 =>
      cases e2 : Ray.hit_collection r l2 t_r with
      | none =>
        obtain ⟨p, hp, hpe⟩ :=
          (aux_mem r l t_r none h1 e1).resolve_left (by simp)
        have hn := aux_none r l2 t_r e2 p (hperm.mem_iff.mp hp)
        rw [hn] at hpe
        exact absurd hpe (by simp)
      | some h2 =>
        obtain ⟨p2, hp2, hpe2⟩ :=
          (aux_mem r l2 t_r none h2 e2).resolve_left (by simp)
        obtain ⟨p1, hp1, hpe1⟩ :=
          (aux_mem r l t_r none h1 e1).resolve_left (by simp)
        have h12 : h1.t ≤ h2.t :=
          aux_min r l t_r none h1 e1 (fun h0 he => Option.noConfusion he)
            p2 (hperm.mem_iff.mpr hp2) h2 hpe2
        have h21 : h2.t ≤ h1.t :=
          aux_min r l2 t_r none h2 e2 (fun h0 he => Option.noConfusion he)
            p1 (hperm.mem_iff.mp hp1) h1 hpe1
        simp [le_antisymm h12 h21]

/-- Witness for hit_collection_closest: the single-sphere scene returns the
spec example hit, whose parameter one half lies in the queried range. -/
theorem hit_collection_closest_witness :
    TRange.contains c1_range c6_hit.t :=
  ((hit_collection_closest c6_ray c4w_scene c1_range).1 c6_hit
    (by
      simp only [Ray.hit_collection, c4w_scene, Ray.hit_collection_aux,
        c6_hit_eval])).1
